import Mathlib

/-!
Verification of the Balance ledger algebra and the simulation data model of
the `agora` repository (`src/sim/model.rs` and `src/sim/model_old.rs`).

A Rust `BTreeMap<K, i64>` is modelled as an association list `List (K × Int)`
whose keys are strictly increasing (`keysSorted`); structural equality of two
such lists coincides with Rust's derived `PartialEq` on `BTreeMap`, which
compares the two maps entry by entry.  Machine integers `i64` are modelled as
`Int`; where the wrapping-overflow convention matters, values are reduced into
the `i64` range explicitly with `wrap64`.
-/

namespace Agora

/-- The entry list of a `BTreeMap<K, i64>`: key/amount pairs. -/
abbrev Entries (K : Type) := List (K × Int)

/-- `Balance<K>` from `src/sim/model.rs` (and, structurally identical,
from `src/sim/model_old.rs`): a struct with a single field
`amounts: BTreeMap<K, i64>`. -/
structure Balance (K : Type) where
  amounts : Entries K
deriving DecidableEq

/-- Keys of the entry list are strictly increasing — the representation
invariant of `BTreeMap` (unique keys, stored in ascending order). -/
def keysSorted {K : Type} [LinearOrder K] (l : Entries K) : Prop :=
  l.Pairwise (fun p q => p.1 < q.1)

instance {K : Type} [LinearOrder K] (l : Entries K) : Decidable (keysSorted l) := by
  unfold keysSorted
  infer_instance

/-- `BTreeMap::get` (extensionally): first entry with the given key. -/
def lookupAmt {K : Type} [DecidableEq K] (l : Entries K) (k : K) : Option Int :=
  match l with
  | [] => none
  | (k₀, v) :: t => if k = k₀ then some v else lookupAmt t k

/-- The amount held for key `k`, treating an absent key as zero. -/
def getAmtD {K : Type} [DecidableEq K] (l : Entries K) (k : K) : Int :=
  (lookupAmt l k).getD 0

/-- One iteration of the `Add` loop body from `model.rs`:
`out.amounts.entry(key).or_insert(0)` followed by `*lhs_value += rhs_value`,
keeping the `BTreeMap` sorted-unique-key representation. -/
def addEntry {K : Type} [LinearOrder K] (l : Entries K) (k : K) (v : Int) :
    Entries K :=
  match l with
  | [] => [(k, v)]
  | (k₀, v₀) :: t =>
    if k < k₀ then (k, v) :: (k₀, v₀) :: t
    else if k = k₀ then (k₀, v₀ + v) :: t
    else (k₀, v₀) :: addEntry t k v

/-- `impl Add for &Balance<K>` from `src/sim/model.rs` (lines 63–77):
clone `self`, then for every entry of `rhs` add its value into the clone. -/
def combine {K : Type} [LinearOrder K] (a b : Balance K) : Balance K :=
  ⟨b.amounts.foldl (fun out p => addEntry out p.1 p.2) a.amounts⟩

/-- One iteration of the `Add` loop body from `model_old.rs` (textually the
same code as in `model.rs`, under wider trait bounds). -/
def addEntryOld {K : Type} [LinearOrder K] (l : Entries K) (k : K) (v : Int) :
    Entries K :=
  match l with
  | [] => [(k, v)]
  | (k₀, v₀) :: t =>
    if k < k₀ then (k, v) :: (k₀, v₀) :: t
    else if k = k₀ then (k₀, v₀ + v) :: t
    else (k₀, v₀) :: addEntryOld t k v

/-- `impl Add for &Balance<K>` from `src/sim/model_old.rs` (lines 84–98). -/
def combineOld {K : Type} [LinearOrder K] (a b : Balance K) : Balance K :=
  ⟨b.amounts.foldl (fun out p => addEntryOld out p.1 p.2) a.amounts⟩

/-- `Balance::new` from `src/sim/model.rs` (lines 55–61): the empty map. -/
def Balance.new {K : Type} : Balance K := ⟨[]⟩

/-- `impl Mul<i64> for &Balance<K>` from `src/sim/model_old.rs`
(lines 100–116): maps every entry `(k, v)` to `(k, v + rhs)` — note the
addition — and collects the result (the key set is unchanged, so collecting
back into a `BTreeMap` preserves the entry list). -/
def mulOld {K : Type} (a : Balance K) (rhs : Int) : Balance K :=
  ⟨a.amounts.map (fun p => (p.1, p.2 + rhs))⟩

/-- Reduction of an unbounded integer into the `i64` range, as Rust's
wrapping (two's-complement) arithmetic performs it. -/
def wrap64 (n : Int) : Int := (n + 2 ^ 63) % 2 ^ 64 - 2 ^ 63

/-- The value is representable as an `i64`. -/
def InI64 (n : Int) : Prop := -(2 ^ 63) ≤ n ∧ n < 2 ^ 63

instance (n : Int) : Decidable (InI64 n) := by
  unfold InI64
  infer_instance

/-- Boolean check that every amount of the entry list is in `i64` range. -/
def allInI64 {K : Type} (l : Entries K) : Bool :=
  l.all fun p => decide (InI64 p.2)

/-- The `Add` loop body under the fixed-width wrapping convention: every
value written back into the map is reduced into the `i64` range. -/
def addEntryWrap {K : Type} [LinearOrder K] (l : Entries K) (k : K) (v : Int) :
    Entries K :=
  match l with
  | [] => [(k, wrap64 (0 + v))]
  | (k₀, v₀) :: t =>
    if k < k₀ then (k, wrap64 (0 + v)) :: (k₀, v₀) :: t
    else if k = k₀ then (k₀, wrap64 (v₀ + v)) :: t
    else (k₀, v₀) :: addEntryWrap t k v

/-- `impl Add for &Balance<K>` with `i64` overflow treated as wrapping. -/
def combineWrap {K : Type} [LinearOrder K] (a b : Balance K) : Balance K :=
  ⟨b.amounts.foldl (fun out p => addEntryWrap out p.1 p.2) a.amounts⟩

/-- `impl Mul<i64> for &Balance<K>` from `model_old.rs` with `i64` overflow
treated as wrapping. -/
def mulOldWrap {K : Type} (a : Balance K) (rhs : Int) : Balance K :=
  ⟨a.amounts.map (fun p => (p.1, wrap64 (p.2 + rhs)))⟩

/-- The data model of the configuration format (TOML-like): integers,
strings, and tables of named fields. -/
inductive SerValue : Type where
  | int : Int → SerValue
  | str : String → SerValue
  | table : List (String × SerValue) → SerValue

/-- Field access in a serialized table. -/
def tableLookup (fields : List (String × SerValue)) (name : String) :
    Option SerValue :=
  match fields with
  | [] => none
  | (n, v) :: t => if name = n then some v else tableLookup t name

/-- Field access on a serialized value; `none` on non-tables. -/
def fieldOf (s : SerValue) (name : String) : Option SerValue :=
  match s with
  | .table fields => tableLookup fields name
  | _ => none

/-- Name of the first field of a serialized table, if any. -/
def headFieldName (s : SerValue) : Option String :=
  match s with
  | .table ((n, _) :: _) => some n
  | _ => none

/-- Modelled from the spec: the serde-derived `Serialize` output for the
inner `amounts: BTreeMap<K, i64>` map of `Balance` (the generated impl is
not part of `src/`) — a map serializes as a plain key→integer table. -/
def serializeAmounts (l : Entries String) : SerValue :=
  .table (l.map fun p => (p.1, .int p.2))

/-- Modelled from the spec: the serde-derived `Serialize` output for
`Balance<K>` as declared in `src/sim/model.rs` — a derived struct with the
single named field `amounts` and no `#[serde(transparent)]` attribute
serializes as a table holding that one field. -/
def serializeBalance (b : Balance String) : SerValue :=
  .table [("amounts", serializeAmounts b.amounts)]

/-- `Duration` in its serialized form: whole seconds plus nanoseconds. -/
structure Duration where
  secs : Nat
  nanos : Nat
deriving DecidableEq

/-- `Recipe` from `src/sim/model.rs` (lines 34–48). -/
structure Recipe where
  building : String
  conversion : Balance String
  cycle : Duration
  labor : Balance String

/-- `BTreeMap` insertion (replacing an existing entry), used when collecting
deserialized key/amount pairs into a map. -/
def setEntry (l : Entries String) (k : String) (v : Int) : Entries String :=
  match l with
  | [] => [(k, v)]
  | (k₀, v₀) :: t =>
    if k < k₀ then (k, v) :: (k₀, v₀) :: t
    else if k = k₀ then (k₀, v) :: t
    else (k₀, v₀) :: setEntry t k v

/-- Modelled from the spec: deserialization of the entries of a key→integer
table (every field value must be an integer). -/
def deserEntries (fields : List (String × SerValue)) :
    Except String (Entries String) :=
  match fields with
  | [] => .ok []
  | (k, .int v) :: t => (deserEntries t).map (fun r => (k, v) :: r)
  | _ => .error "invalid amount: expected integer"

/-- Required-field access: serde's derived deserializers raise a
missing-field error when a required field is absent. -/
def reqField (fields : List (String × SerValue)) (name : String) :
    Except String SerValue :=
  match tableLookup fields name with
  | some v => .ok v
  | none => .error ("missing field " ++ name)

/-- Modelled from the spec: the serde-derived `Deserialize` for `Balance`
(struct with the single required field `amounts`, holding a key→integer
table collected into a `BTreeMap`). -/
def deserBalance (s : SerValue) : Except String (Balance String) :=
  match s with
  | .table fields =>
    match tableLookup fields "amounts" with
    | some (.table entries) =>
      (deserEntries entries).map fun l =>
        ⟨l.foldl (fun out p => setEntry out p.1 p.2) []⟩
    | some _ => .error "invalid amounts: expected table"
    | none => .error "missing field amounts"
  | _ => .error "expected table"

/-- Modelled from the spec: deserialization of a `Duration` from its
serialized `{secs, nanos}` form, both fields required and non-negative. -/
def deserDuration (s : SerValue) : Except String Duration :=
  match s with
  | .table fields =>
    match tableLookup fields "secs", tableLookup fields "nanos" with
    | some (.int sv), some (.int nv) =>
      if 0 ≤ sv ∧ 0 ≤ nv then .ok ⟨sv.toNat, nv.toNat⟩
      else .error "invalid duration"
    | _, _ => .error "invalid duration"
  | _ => .error "expected table"

/-- Modelled from the spec: the serde-derived `Deserialize` for `Recipe` as
declared in `src/sim/model.rs` — the fields `building`, `conversion`,
`cycle` and `labor` are all required (none carries a serde default
attribute), so a record missing one of them deserializes to an error. -/
def deserRecipe (s : SerValue) : Except String Recipe :=
  match s with
  | .table fields =>
    (reqField fields "building").bind fun bv =>
    (match bv with
      | .str n => Except.ok n
      | _ => Except.error "invalid building: expected string").bind fun bname =>
    (reqField fields "conversion").bind fun cv =>
    (deserBalance cv).bind fun conversion =>
    (reqField fields "cycle").bind fun cyv =>
    (deserDuration cyv).bind fun cycle =>
    (reqField fields "labor").bind fun lv =>
    (deserBalance lv).bind fun labor =>
    Except.ok ⟨bname, conversion, cycle, labor⟩
  | _ => .error "expected table"

/-- Whether a deserialization result is an error. -/
def isErrorRes {α : Type} (x : Except String α) : Bool :=
  match x with
  | .error _ => true
  | .ok _ => false

section Lemmas

variable {K : Type} [LinearOrder K]

theorem lookup_eq_none_of_forall_ne (l : Entries K) (k : K)
    (h : ∀ p ∈ l, p.1 ≠ k) : lookupAmt l k = none := by
  induction l with
  | nil => rfl
  | cons p t ih =>
    obtain ⟨k₀, v₀⟩ := p
    have hk : k ≠ k₀ := fun he => (h (k₀, v₀) (List.mem_cons_self _ _)) he.symm
    simp only [lookupAmt, if_neg hk]
    exact ih (fun q hq => h q (List.mem_cons_of_mem _ hq))

theorem mem_of_lookup_some (l : Entries K) (k : K) (v : Int)
    (h : lookupAmt l k = some v) : (k, v) ∈ l := by
  induction l with
  | nil => simp [lookupAmt] at h
  | cons p t ih =>
    obtain ⟨k₀, v₀⟩ := p
    by_cases hk : k = k₀
    · simp only [lookupAmt, if_pos hk] at h
      obtain rfl : v₀ = v := Option.some.inj h
      subst hk
      exact List.mem_cons_self _ _
    · simp only [lookupAmt, if_neg hk] at h
      exact List.mem_cons_of_mem _ (ih h)

theorem mem_addEntry (l : Entries K) (k : K) (v : Int) :
    ∀ q ∈ addEntry l k v, q.1 = k ∨ q ∈ l := by
  induction l with
  | nil =>
    intro q hq
    simp only [addEntry, List.mem_singleton] at hq
    exact Or.inl (by rw [hq])
  | cons p t ih =>
    obtain ⟨k₀, v₀⟩ := p
    intro q hq
    by_cases h1 : k < k₀
    · simp only [addEntry, if_pos h1] at hq
      rcases List.mem_cons.mp hq with rfl | hq
      · exact Or.inl rfl
      · exact Or.inr hq
    · by_cases h2 : k = k₀
      · simp only [addEntry, if_neg h1, if_pos h2] at hq
        rcases List.mem_cons.mp hq with rfl | hq
        · exact Or.inl h2.symm
        · exact Or.inr (List.mem_cons_of_mem _ hq)
      · simp only [addEntry, if_neg h1, if_neg h2] at hq
        rcases List.mem_cons.mp hq with rfl | hq
        · exact Or.inr (List.mem_cons_self _ _)
        · rcases ih q hq with h | h
          · exact Or.inl h
          · exact Or.inr (List.mem_cons_of_mem _ h)

theorem keysSorted_addEntry (l : Entries K) (k : K) (v : Int)
    (h : keysSorted l) : keysSorted (addEntry l k v) := by
  induction l with
  | nil => simp [addEntry, keysSorted]
  | cons p t ih =>
    obtain ⟨k₀, v₀⟩ := p
    rw [keysSorted, List.pairwise_cons] at h
    obtain ⟨hhead, htail⟩ := h
    by_cases h1 : k < k₀
    · simp only [addEntry, if_pos h1]
      rw [keysSorted, List.pairwise_cons]
      refine ⟨?_, List.Pairwise.cons hhead htail⟩
      intro q hq
      rcases List.mem_cons.mp hq with rfl | hq
      · exact h1
      · exact lt_trans h1 (hhead q hq)
    · by_cases h2 : k = k₀
      · simp only [addEntry, if_neg h1, if_pos h2]
        exact List.Pairwise.cons hhead htail
      · simp only [addEntry, if_neg h1, if_neg h2]
        have hk₀ : k₀ < k := lt_of_le_of_ne (not_lt.mp h1) (fun he => h2 he.symm)
        rw [keysSorted, List.pairwise_cons]
        refine ⟨?_, ih htail⟩
        intro q hq
        rcases mem_addEntry t k v q hq with hqk | hqt
        · rw [hqk]; exact hk₀
        · exact hhead q hqt

theorem lookup_addEntry_self (l : Entries K) (k : K) (v : Int)
    (h : keysSorted l) :
    lookupAmt (addEntry l k v) k = some (getAmtD l k + v) := by
  induction l with
  | nil => simp [addEntry, lookupAmt, getAmtD]
  | cons p t ih =>
    obtain ⟨k₀, v₀⟩ := p
    rw [keysSorted, List.pairwise_cons] at h
    obtain ⟨hhead, htail⟩ := h
    by_cases h1 : k < k₀
    · simp only [addEntry, if_pos h1, lookupAmt, if_pos rfl]
      have hta : lookupAmt ((k₀, v₀) :: t) k = none := by
        apply lookup_eq_none_of_forall_ne
        intro q hq
        rcases List.mem_cons.mp hq with rfl | hq
        · exact ne_of_gt h1
        · exact ne_of_gt (lt_trans h1 (hhead q hq))
      rw [getAmtD, hta]
      simp
    · by_cases h2 : k = k₀
      · subst h2
        simp [addEntry, if_neg h1, lookupAmt, getAmtD]
      · simp only [addEntry, if_neg h1, if_neg h2, lookupAmt, if_neg h2,
          getAmtD]
        exact ih htail

theorem lookup_addEntry_ne (l : Entries K) (k : K) (v : Int) (k₁ : K)
    (h : k₁ ≠ k) : lookupAmt (addEntry l k v) k₁ = lookupAmt l k₁ := by
  induction l with
  | nil => simp [addEntry, lookupAmt, if_neg h]
  | cons p t ih =>
    obtain ⟨k₀, v₀⟩ := p
    by_cases h1 : k < k₀
    · simp only [addEntry, if_pos h1, lookupAmt, if_neg h]
    · by_cases h2 : k = k₀
      · subst h2
        simp only [addEntry, if_neg h1, if_pos rfl, lookupAmt, if_neg h]
      · simp only [addEntry, if_neg h1, if_neg h2, lookupAmt]
        by_cases h3 : k₁ = k₀
        · simp [if_pos h3]
        · simp only [if_neg h3]
          exact ih

theorem entries_ext (l₁ : Entries K) :
    ∀ (l₂ : Entries K), keysSorted l₁ → keysSorted l₂ →
    (∀ k, lookupAmt l₁ k = lookupAmt l₂ k) → l₁ = l₂ := by
  induction l₁ with
  | nil =>
    intro l₂ _ _ h
    cases l₂ with
    | nil => rfl
    | cons p t =>
      obtain ⟨k₂, v₂⟩ := p
      have := h k₂
      simp [lookupAmt] at this
  | cons p t₁ ih =>
    intro l₂ h₁ h₂ h
    obtain ⟨k₁, v₁⟩ := p
    cases l₂ with
    | nil =>
      have := h k₁
      simp [lookupAmt] at this
    | cons q t₂ =>
      obtain ⟨k₂, v₂⟩ := q
      rw [keysSorted, List.pairwise_cons] at h₁ h₂
      obtain ⟨hh₁, ht₁⟩ := h₁
      obtain ⟨hh₂, ht₂⟩ := h₂
      have e₁ : lookupAmt ((k₂, v₂) :: t₂) k₁ = some v₁ := by
        rw [← h k₁]; simp [lookupAmt]
      have e₂ : lookupAmt ((k₁, v₁) :: t₁) k₂ = some v₂ := by
        rw [h k₂]; simp [lookupAmt]
      have hk : k₁ = k₂ := by
        rcases List.mem_cons.mp (mem_of_lookup_some _ _ _ e₁) with he | hm₁
        · exact congrArg Prod.fst he
        · rcases List.mem_cons.mp (mem_of_lookup_some _ _ _ e₂) with he | hm₂
          · exact (congrArg Prod.fst he).symm
          · exact absurd (hh₂ _ hm₁) (not_lt.mpr (le_of_lt (hh₁ _ hm₂)))
      subst hk
      have hv : v₁ = v₂ := by
        simp [lookupAmt] at e₁
        exact e₁.symm
      subst hv
      have htleq : t₁ = t₂ := by
        apply ih t₂ ht₁ ht₂
        intro k
        by_cases hke : k = k₁
        · subst hke
          rw [lookup_eq_none_of_forall_ne t₁ k
              (fun q hq => ne_of_gt (hh₁ q hq)),
            lookup_eq_none_of_forall_ne t₂ k
              (fun q hq => ne_of_gt (hh₂ q hq))]
        · have := h k
          simpa [lookupAmt, if_neg hke] using this
      rw [htleq]

theorem balance_eq_of_amounts_eq {x y : Balance K} (h : x.amounts = y.amounts) :
    x = y := by
  cases x
  cases y
  cases h
  rfl

theorem keysDistinct_of_sorted (l : Entries K) (h : keysSorted l) :
    l.Pairwise (fun p q => p.1 ≠ q.1) :=
  h.imp (fun hlt => ne_of_lt hlt)

theorem keysSorted_foldl_addEntry (l : Entries K) :
    ∀ init : Entries K, keysSorted init →
      keysSorted (l.foldl (fun out p => addEntry out p.1 p.2) init) := by
  induction l with
  | nil => intro init h; exact h
  | cons p t ih =>
    intro init h
    exact ih _ (keysSorted_addEntry init p.1 p.2 h)

theorem lookup_foldl_addEntry (l : Entries K) :
    ∀ (init : Entries K) (k : K), keysSorted init →
      l.Pairwise (fun p q => p.1 ≠ q.1) →
      lookupAmt (l.foldl (fun out p => addEntry out p.1 p.2) init) k
        = match lookupAmt l k with
          | some v => some (getAmtD init k + v)
          | none => lookupAmt init k := by
  induction l with
  | nil => intro init k _ _; rfl
  | cons p t ih =>
    obtain ⟨k₀, v₀⟩ := p
    intro init k hs hd
    rw [List.pairwise_cons] at hd
    obtain ⟨hhead, htail⟩ := hd
    have hs₁ := keysSorted_addEntry init k₀ v₀ hs
    have hrec := ih (addEntry init k₀ v₀) k hs₁ htail
    rw [List.foldl_cons]
    by_cases hk : k = k₀
    · subst hk
      have ht : lookupAmt t k = none :=
        lookup_eq_none_of_forall_ne t k (fun q hq => Ne.symm (hhead q hq))
      rw [hrec, ht, lookup_addEntry_self init k v₀ hs]
      simp [lookupAmt]
    · have h1 : lookupAmt (addEntry init k₀ v₀) k = lookupAmt init k :=
        lookup_addEntry_ne init k₀ v₀ k hk
      have h2 : getAmtD (addEntry init k₀ v₀) k = getAmtD init k := by
        rw [getAmtD, getAmtD, h1]
      rw [hrec, h1, h2]
      simp only [lookupAmt, if_neg hk]

theorem combine_amounts (a b : Balance K) :
    (combine a b).amounts
      = b.amounts.foldl (fun out p => addEntry out p.1 p.2) a.amounts := rfl

theorem keysSorted_combine (a b : Balance K) (ha : keysSorted a.amounts) :
    keysSorted (combine a b).amounts :=
  keysSorted_foldl_addEntry b.amounts a.amounts ha

theorem lookup_combine (a b : Balance K) (ha : keysSorted a.amounts)
    (hb : keysSorted b.amounts) (k : K) :
    lookupAmt (combine a b).amounts k =
      match lookupAmt a.amounts k, lookupAmt b.amounts k with
      | none, none => none
      | some x, none => some x
      | none, some y => some y
      | some x, some y => some (x + y) := by
  rw [combine_amounts,
    lookup_foldl_addEntry b.amounts a.amounts k ha
      (keysDistinct_of_sorted b.amounts hb)]
  cases hbk : lookupAmt b.amounts k with
  | none => cases hak : lookupAmt a.amounts k <;> simp [getAmtD, hak]
  | some y => cases hak : lookupAmt a.amounts k <;> simp [getAmtD, hak]

theorem lookup_map_add [DecidableEq K] (l : Entries K) (n : Int) (k : K) :
    lookupAmt (l.map (fun p => (p.1, p.2 + n))) k
      = (lookupAmt l k).map (fun v => v + n) := by
  induction l with
  | nil => rfl
  | cons p t ih =>
    obtain ⟨k₀, v₀⟩ := p
    by_cases hk : k = k₀ <;> simp [lookupAmt, hk, ih]

theorem addEntryOld_eq (l : Entries K) (k : K) (v : Int) :
    addEntryOld l k v = addEntry l k v := by
  induction l with
  | nil => rfl
  | cons p t ih =>
    obtain ⟨k₀, v₀⟩ := p
    simp only [addEntry, addEntryOld, ih]

theorem wrap64_mem (n : Int) : InI64 (wrap64 n) := by
  unfold InI64 wrap64
  have hne : ((2 : Int) ^ 64) ≠ 0 := by norm_num
  have hpos : (0 : Int) < 2 ^ 64 := by norm_num
  have h1 : 0 ≤ (n + 2 ^ 63) % 2 ^ 64 := Int.emod_nonneg _ hne
  have h2 : (n + 2 ^ 63) % 2 ^ 64 < 2 ^ 64 := Int.emod_lt_of_pos _ hpos
  have h3 : ((2 : Int) ^ 64) = 2 ^ 63 + 2 ^ 63 := by norm_num
  constructor <;> linarith

theorem allInI64_iff {K : Type} (l : Entries K) :
    allInI64 l = true ↔ ∀ p ∈ l, InI64 p.2 := by
  simp [allInI64, List.all_eq_true, decide_eq_true_iff]

theorem mem_addEntryWrap (l : Entries K) (k : K) (v : Int)
    (h : ∀ p ∈ l, InI64 p.2) :
    ∀ p ∈ addEntryWrap l k v, InI64 p.2 := by
  induction l with
  | nil =>
    intro p hp
    simp only [addEntryWrap, List.mem_singleton] at hp
    rw [hp]
    exact wrap64_mem _
  | cons q t ih =>
    obtain ⟨k₀, v₀⟩ := q
    intro p hp
    by_cases h1 : k < k₀
    · simp only [addEntryWrap, if_pos h1] at hp
      rcases List.mem_cons.mp hp with rfl | hp
      · exact wrap64_mem _
      · exact h p hp
    · by_cases h2 : k = k₀
      · simp only [addEntryWrap, if_neg h1, if_pos h2] at hp
        rcases List.mem_cons.mp hp with rfl | hp
        · exact wrap64_mem _
        · exact h p (List.mem_cons_of_mem _ hp)
      · simp only [addEntryWrap, if_neg h1, if_neg h2] at hp
        rcases List.mem_cons.mp hp with rfl | hp
        · exact h _ (List.mem_cons_self _ _)
        · exact ih (fun q hq => h q (List.mem_cons_of_mem _ hq)) p hp

theorem mem_foldl_addEntryWrap (l : Entries K) :
    ∀ init : Entries K, (∀ p ∈ init, InI64 p.2) →
      ∀ p ∈ l.foldl (fun out q => addEntryWrap out q.1 q.2) init, InI64 p.2 := by
  induction l with
  | nil => intro init h; exact h
  | cons q t ih =>
    intro init h
    exact ih _ (mem_addEntryWrap init q.1 q.2 h)

theorem tableLookup_map_int (l : Entries String) (k : String) :
    tableLookup (l.map fun p => (p.1, SerValue.int p.2)) k
      = (lookupAmt l k).map SerValue.int := by
  induction l with
  | nil => rfl
  | cons p t ih =>
    obtain ⟨k₀, v₀⟩ := p
    by_cases hk : k = k₀ <;> simp [tableLookup, lookupAmt, hk, ih]

theorem map_fst_map_add {K : Type} (l : Entries K) (n : Int) :
    (l.map (fun p => (p.1, p.2 + n))).map Prod.fst = l.map Prod.fst := by
  induction l with
  | nil => rfl
  | cons p t ih => simp [ih]

end Lemmas

/-- Claim C1: the `Add` implementation on `&Balance<K>` returns a Balance
whose entry for every key present in either operand is the sum of the two
operands' entries for that key, treating an absent key as zero; every key
appearing in either input (including explicit-zero entries) appears in the
output with the summed value, and no other key appears. -/
theorem combine_entry_sum {K : Type} [LinearOrder K] (a b : Balance K) (k : K)
    (ha : keysSorted a.amounts) (hb : keysSorted b.amounts) :
    lookupAmt (combine a b).amounts k
      = match lookupAmt a.amounts k, lookupAmt b.amounts k with
        | none, none => none
        | some x, none => some (x + 0)
        | none, some y => some (0 + y)
        | some x, some y => some (x + y) := by
  rw [lookup_combine a b ha hb k]
  cases lookupAmt a.amounts k <;> cases lookupAmt b.amounts k <;> simp

/-- Witness for C1: combining `{1 ↦ 0, 3 ↦ -2}` with `{1 ↦ 5}` keeps the
explicit-zero key `1` and sums it to `0 + 5`. -/
theorem combine_entry_sum_witness :
    lookupAmt (combine (⟨[(1, 0), (3, -2)]⟩ : Balance Nat)
        ⟨[(1, 5)]⟩).amounts 1 = some (0 + 5) :=
  combine_entry_sum ⟨[(1, 0), (3, -2)]⟩ ⟨[(1, 5)]⟩ 1 (by decide) (by decide)

/-- Claim C2 (code bug): the scaling operation of `model_old.rs` is the
`Mul` operator yet adds the scalar to each entry, so the multiplicative
contract fails: scaling `{plank ↦ 1, wood ↦ -2}` by 3 yields
`{plank ↦ 4, wood ↦ 1}`, not `{plank ↦ 3, wood ↦ -6}`, and scaling
`{wood ↦ -2}` by 1 does not return the operand unchanged. -/
theorem mul_scaling_contract_fails :
    mulOld (⟨[("plank", 1), ("wood", -2)]⟩ : Balance String) 3
        = ⟨[("plank", 4), ("wood", 1)]⟩ ∧
    mulOld (⟨[("plank", 1), ("wood", -2)]⟩ : Balance String) 3
        ≠ ⟨[("plank", 3), ("wood", -6)]⟩ ∧
    mulOld (⟨[("wood", -2)]⟩ : Balance String) 1
        ≠ ⟨[("wood", -2)]⟩ := by
  refine ⟨rfl, ?_, ?_⟩ <;> decide

/-- Claim C3: combination is commutative and associative. -/
theorem combine_comm_assoc {K : Type} [LinearOrder K] (a b c : Balance K)
    (ha : keysSorted a.amounts) (hb : keysSorted b.amounts)
    (hc : keysSorted c.amounts) :
    combine a b = combine b a ∧
    combine (combine a b) c = combine a (combine b c) := by
  constructor
  · apply balance_eq_of_amounts_eq
    apply entries_ext _ _ (keysSorted_combine a b ha) (keysSorted_combine b a hb)
    intro k
    rw [lookup_combine a b ha hb k, lookup_combine b a hb ha k]
    cases lookupAmt a.amounts k <;> cases lookupAmt b.amounts k <;>
      simp [Int.add_comm]
  · apply balance_eq_of_amounts_eq
    apply entries_ext _ _
      (keysSorted_combine (combine a b) c (keysSorted_combine a b ha))
      (keysSorted_combine a (combine b c) ha)
    intro k
    rw [lookup_combine (combine a b) c (keysSorted_combine a b ha) hc k,
      lookup_combine a b ha hb k,
      lookup_combine a (combine b c) ha (keysSorted_combine b c hb) k,
      lookup_combine b c hb hc k]
    cases lookupAmt a.amounts k <;> cases lookupAmt b.amounts k <;>
      cases lookupAmt c.amounts k <;> simp [Int.add_assoc]

/-- Witness for C3: concrete commutativity and associativity instances. -/
theorem combine_comm_assoc_witness :
    (combine (⟨[(1, 2)]⟩ : Balance Nat) ⟨[(2, 3)]⟩
      = combine ⟨[(2, 3)]⟩ ⟨[(1, 2)]⟩) ∧
    (combine (combine (⟨[(1, 2)]⟩ : Balance Nat) ⟨[(2, 3)]⟩) ⟨[(1, -1)]⟩
      = combine ⟨[(1, 2)]⟩ (combine ⟨[(2, 3)]⟩ ⟨[(1, -1)]⟩)) :=
  combine_comm_assoc ⟨[(1, 2)]⟩ ⟨[(2, 3)]⟩ ⟨[(1, -1)]⟩
    (by decide) (by decide) (by decide)

/-- Claim C4: combining any Balance with the empty Balance produced by
`Balance::new` yields a value equal to the original operand. -/
theorem combine_empty_right {K : Type} [LinearOrder K] (a : Balance K) :
    combine a Balance.new = a := rfl

/-- Counterexample for C5: under the derived `PartialEq` a Balance with an
explicit zero entry for key `X` is NOT equal to the empty Balance. -/
theorem balance_zero_entry_ne_empty :
    (⟨[("X", 0)]⟩ : Balance String) ≠ Balance.new := by decide

/-- Claim C5 as amended: Balance equality is structural equality of the
underlying `amounts` maps — two Balances are equal exactly when their entry
lists hold the same value (or jointly no value) at every key, with an
explicit zero entry distinct from an absent key. -/
theorem balance_eq_iff_lookup_eq {K : Type} [LinearOrder K] (a b : Balance K)
    (ha : keysSorted a.amounts) (hb : keysSorted b.amounts) :
    a = b ↔ ∀ k, lookupAmt a.amounts k = lookupAmt b.amounts k := by
  constructor
  · intro h k
    rw [h]
  · intro h
    exact balance_eq_of_amounts_eq (entries_ext _ _ ha hb h)

/-- Witness for the amended C5 at a concrete pair of Balances. -/
theorem balance_eq_iff_lookup_eq_witness :
    (⟨[(1, 0)]⟩ : Balance Nat) = ⟨[]⟩ ↔
      ∀ k, lookupAmt [((1 : Nat), (0 : Int))] k = lookupAmt [] k :=
  balance_eq_iff_lookup_eq ⟨[(1, 0)]⟩ ⟨[]⟩ (by decide) (by decide)

/-- Claim C6: the `Mul` operation of `model_old.rs` preserves the key set
and maps each entry to the original value **plus** the scalar. -/
theorem mulOld_adds_scalar {K : Type} [LinearOrder K] (a : Balance K)
    (n : Int) :
    ((mulOld a n).amounts.map Prod.fst = a.amounts.map Prod.fst) ∧
    ∀ k, lookupAmt (mulOld a n).amounts k
        = (lookupAmt a.amounts k).map (fun v => v + n) := by
  refine ⟨map_fst_map_add a.amounts n, fun k => ?_⟩
  exact lookup_map_add a.amounts n k

/-- Claim C7: under the fixed-width wrapping convention the Balance
arithmetic operations always produce a Balance all of whose entries are
representable `i64` values — there is no failure branch. -/
theorem wrap_arith_total_in_range {K : Type} [LinearOrder K] (a b : Balance K)
    (n : Int) (ha : allInI64 a.amounts = true) :
    allInI64 (combineWrap a b).amounts = true ∧
    allInI64 (mulOldWrap a n).amounts = true := by
  constructor
  · rw [allInI64_iff]
    exact mem_foldl_addEntryWrap b.amounts a.amounts ((allInI64_iff _).mp ha)
  · rw [allInI64_iff]
    intro p hp
    have hp2 : p ∈ a.amounts.map (fun q => (q.1, wrap64 (q.2 + n))) := hp
    rcases List.mem_map.mp hp2 with ⟨q, _, rfl⟩
    exact wrap64_mem _

/-- Witness for C7 at inputs whose sums overflow `i64`. -/
theorem wrap_arith_total_in_range_witness :
    allInI64 (combineWrap (⟨[(1, 2)]⟩ : Balance Nat)
        ⟨[(1, 9223372036854775807)]⟩).amounts = true ∧
    allInI64 (mulOldWrap (⟨[(1, 2)]⟩ : Balance Nat)
        9223372036854775807).amounts = true :=
  wrap_arith_total_in_range ⟨[(1, 2)]⟩ ⟨[(1, 9223372036854775807)]⟩
    9223372036854775807 (by decide)

/-- Counterexample for C8: the serialized form of a Balance is not the
plain key→integer table of its entries — it is wrapped in a struct
table whose single field is `amounts`. -/
theorem serializeBalance_not_plain_map :
    serializeBalance ⟨[("wood", -2)]⟩ ≠ serializeAmounts [("wood", -2)] := by
  intro h
  have h2 : (some "amounts" : Option String) = some "wood" :=
    congrArg headFieldName h
  exact absurd h2 (by decide)

/-- Claim C8 as amended: `Balance<K>` serializes as a table with the single
field `amounts` holding the plain key→integer mapping, in which every entry
of the Balance appears as its integer amount. -/
theorem serializeBalance_wraps_amounts (b : Balance String) :
    fieldOf (serializeBalance b) "amounts" = some (serializeAmounts b.amounts) ∧
    ∀ k, fieldOf (serializeAmounts b.amounts) k
        = (lookupAmt b.amounts k).map SerValue.int := by
  refine ⟨rfl, fun k => ?_⟩
  exact tableLookup_map_int b.amounts k

/-- Claim C9: deserializing a Recipe from a record with no `cycle` field
fails with a deserialization error rather than defaulting the duration. -/
theorem deserRecipe_missing_cycle (fields : List (String × SerValue))
    (h : tableLookup fields "cycle" = none) :
    isErrorRes (deserRecipe (.table fields)) = true := by
  have hcy : reqField fields "cycle" = Except.error "missing field cycle" := by
    simp [reqField, h]
  simp only [deserRecipe]
  cases hb : reqField fields "building" with
  | error e => simp [Except.bind, isErrorRes]
  | ok bv =>
    cases bv with
    | int m => simp [Except.bind, isErrorRes]
    | table t => simp [Except.bind, isErrorRes]
    | str bn =>
      cases hc : reqField fields "conversion" with
      | error e => simp [Except.bind, isErrorRes]
      | ok cv =>
        cases hcb : deserBalance cv with
        | error e => simp [Except.bind, isErrorRes, hcb]
        | ok conv => simp [Except.bind, isErrorRes, hcb, hcy]

/-- Witness for C9: a record with `building`, `conversion` and `labor` but
no `cycle` field deserializes to an error. -/
theorem deserRecipe_missing_cycle_witness :
    isErrorRes (deserRecipe (.table
      [("building", .str "smelter"),
       ("conversion", .table
         [("amounts", .table [("ingot", .int 1), ("ore", .int (-3))])]),
       ("labor", .table
         [("amounts", .table [("laborer", .int (-2))])])])) = true :=
  deserRecipe_missing_cycle
    [("building", .str "smelter"),
     ("conversion", .table
       [("amounts", .table [("ingot", .int 1), ("ore", .int (-3))])]),
     ("labor", .table
       [("amounts", .table [("laborer", .int (-2))])])] rfl

/-- Claim C10: the `Add` implementations of `model.rs` and `model_old.rs`
are extensionally equal — on every pair of Balances they produce identical
results. -/
theorem combine_old_eq_new {K : Type} [LinearOrder K] (a b : Balance K) :
    combineOld a b = combine a b := by
  apply balance_eq_of_amounts_eq
  show b.amounts.foldl (fun out p => addEntryOld out p.1 p.2) a.amounts
      = b.amounts.foldl (fun out p => addEntry out p.1 p.2) a.amounts
  have hfun : (fun (out : Entries K) (p : K × Int) => addEntryOld out p.1 p.2)
      = fun out p => addEntry out p.1 p.2 := by
    funext out p
    exact addEntryOld_eq out p.1 p.2
  rw [hfun]

end Agora
